import Mathlib

/-!
# Verification of the revive per-file lint pipeline and directive suppression engine

Shallow embedding of `lint/file.go` (the rule-application pipeline and the
inline-directive suppression engine).  Go machine integers that hold source
line numbers are modelled as `Int` (Go `int`); `math.MaxInt32` is the literal
sentinel `2147483647`.  The float64 confidence values are only ever compared
with `>=`, never computed with, so they are modelled as rationals.  The
`failures chan Failure` is modelled by returning the ordered list of values
sent on it; the fatal-abort path (`return errors.New(...)`) is modelled by an
`Option String` error component.
-/

namespace Revive

/-- Modelled from the spec: rule arguments are opaque to the pipeline
(`lint.Arguments` is declared outside the shown source); only their identity
is passed through to `Rule.Apply`. -/
abbrev Arguments := List String

/-- Modelled from the spec: a syntax-tree node reference carried by a
Finding; the pipeline only ever reads its start and end positions
(`failure.Node.Pos()`, `failure.Node.End()`). -/
structure Node where
  pos : Int
  endPos : Int
deriving DecidableEq, Repr

/-- Modelled from the spec: a resolved position range (start/end line) of a
Finding.  `token.Position` columns and offsets are never read by the embedded
code, so only the line components are carried. -/
structure FailurePosition where
  startLine : Int
  endLine : Int
deriving DecidableEq, Repr

/-- Modelled from the spec: the Finding (`lint.Failure`) record, declared
outside the shown source: message text, rule name (assigned if empty),
severity, confidence, position range, optional node reference, and the
`internal` flag that marks an engine-level fault. -/
structure Failure where
  failure : String
  ruleName : String
  severity : String
  confidence : ℚ
  position : FailurePosition
  node : Option Node
  internal : Bool
deriving DecidableEq, Repr

/-- Modelled from the spec: `IsInternal` reports the Finding's
engine-fault flag. -/
def Failure.IsInternal (f : Failure) : Bool := f.internal

/-- A `token.Position` as stored in a `DisabledInterval` (filename and
line; the other components are never read by the embedded code). -/
structure TokenPosition where
  filename : String
  line : Int
deriving DecidableEq, Repr

/-- `lint.DisabledInterval`: a suppressed line range for one rule name. -/
structure DisabledInterval where
  ruleName : String
  From : TokenPosition
  To : TokenPosition
deriving DecidableEq, Repr

/-- One comment of a comment group: its raw text (including the `//`
prefix, as `ast.Comment.Text`) and its start/end positions. -/
structure Comment where
  text : String
  pos : Int
  endPos : Int
deriving DecidableEq, Repr

/-- An `ast.CommentGroup`: a list of adjacent comments. -/
structure CommentGroup where
  list : List Comment
deriving DecidableEq, Repr

/-- `CommentGroup.End()`: the end position of the last comment of the
group (comment groups produced by the parser are never empty). -/
def CommentGroup.endPos (g : CommentGroup) : Int :=
  match g.list.getLast? with
  | some c => c.endPos
  | none => 0

/-- `lint.File`, restricted to the components the pipeline reads: the file
name, the comment groups of its syntax tree, and the position-resolution
context (`pkg.fset.Position(pos).Line`) modelled as a map from positions to
lines. -/
structure File where
  name : String
  comments : List CommentGroup
  toLine : Int → Int

/-- `File.ToPosition(pos).Line`: resolve a position to its line via the
package's shared context. -/
def File.ToPositionLine (f : File) (pos : Int) : Int := f.toLine pos

/-- Modelled from the spec: `ToFailurePosition(start, end, f)` (declared
outside the shown source) resolves a start/end position pair to a
start/end line range via the file's context. -/
def ToFailurePosition (start endP : Int) (f : File) : FailurePosition :=
  ⟨f.toLine start, f.toLine endP⟩

/-- Modelled from the spec: a Rule is a named capability whose `Apply` is a
pure function of the file and its configured arguments. -/
structure Rule where
  name : String
  apply : File → Arguments → List Failure

/-- Modelled from the spec: per-rule settings; `MustExclude` is the
file-exclusion predicate evaluated on the file name. -/
structure RuleConfig where
  arguments : Arguments
  mustExclude : String → Bool

/-- The zero value of `RuleConfig` (a Go map lookup miss): no arguments,
no exclusions. -/
def RuleConfig.zero : RuleConfig := ⟨[], fun _ => false⟩

/-- Modelled from the spec: the session configuration consumed by the
pipeline: confidence threshold, per-rule configs, and the set of active
directive policies. -/
structure Config where
  confidence : ℚ
  rules : List (String × RuleConfig)
  directives : List String

/-- `config.Rules[name]` with Go map zero-value semantics. -/
def Config.ruleConfigOf (c : Config) (name : String) : RuleConfig :=
  (c.rules.lookup name).getD RuleConfig.zero

/-- The reserved rule-name marker `specify-disable-reason`. -/
def directiveSpecifyDisableReason : String := "specify-disable-reason"

/-- `lint.enableDisableConfig`: one toggle event of the per-rule event
list. -/
structure enableDisableConfig where
  enabled : Bool
  position : Int
deriving DecidableEq, Repr

/-- The per-rule toggle-event state map (`enabledDisabledRulesMap`),
modelled as an association list with Go-map lookup semantics. -/
abbrev RulesEventsMap := List (String × List enableDisableConfig)

/-- `disabledIntervalsMap`: the output mapping from rule name to its
disabled intervals, modelled as an association list. -/
abbrev DisabledIntervalsMap := List (String × List DisabledInterval)

/-- Update-or-insert for the association lists modelling Go maps. -/
def upsert {α : Type} (k : String) (v : α) : List (String × α) → List (String × α)
  | [] => [(k, v)]
  | (k1, v1) :: rest => if k1 = k then (k, v) :: rest else (k1, v1) :: upsert k v rest

/-- The `\s` character class of the Go regexp engine: `[\t\n\f\r ]`. -/
def goSpace (c : Char) : Bool :=
  c == ' ' || c == '\t' || c == '\n' || c == '\x0c' || c == '\r'

/-- Remove `p` from the front of `s`, or fail if `p` is not a literal
leading segment of `s`. -/
def dropLeading : List Char → List Char → Option (List Char)
  | [], s => some s
  | _ :: _, [] => none
  | p :: ps, c :: cs => if p = c then dropLeading ps cs else none

/-- The tail `[\s]*(?: (.+))?$` of `directiveRegexp`, with leftmost-greedy
submatch semantics: the whitespace run is consumed greedily, backing off one
character at a time to let the optional single-space-plus-reason group match;
`.` does not match a newline.  Returns `none` when the tail does not match,
`some none` when it matches with no reason group, and `some (some r)` with
the captured reason otherwise. -/
def reasonTail : List Char → Option (Option (List Char))
  | [] => some none
  | c :: cs =>
    if goSpace c then
      match reasonTail cs with
      | some r => some r
      | none =>
        if c == ' ' && !cs.isEmpty && cs.all (fun d => d != '\n') then some (some cs)
        else none
    else none

/-- The four submatches of `directiveRegexp` (non-participating groups are
the empty string, as in `FindStringSubmatch`). -/
structure DirectiveMatch where
  directive : String
  modifier : String
  rules : String
  reason : String
deriving DecidableEq, Repr

/-- The part of `directiveRegexp` after the optional scope modifier:
`(?::([^\s]+))?[\s]*(?: (.+))?$` — the optional colon-introduced rule list
(a maximal nonempty run of non-whitespace characters, which is forced,
since what follows it in the regexp can only start with whitespace or the
end of the line) and the reason tail.  Returns the captured rule-list and
reason submatches. -/
def parseAfterModifier (s : List Char) : Option (String × String) :=
  let rs :=
    match s with
    | c :: rest =>
      if c = ':' then
        let r := rest.takeWhile (fun d => !goSpace d)
        if r.isEmpty then (("" : String), s)
        else (String.mk r, rest.dropWhile (fun d => !goSpace d))
      else (("" : String), s)
    | [] => (("" : String), s)
  match reasonTail rs.2 with
  | none => none
  | some reasonOpt =>
    some (rs.1,
      match reasonOpt with
      | some cs => String.mk cs
      | none => "")

/-- The part of `directiveRegexp` after the action alternative:
`(?:-(line|next-line))?(?::([^\s]+))?[\s]*(?: (.+))?$`. -/
def parseAfterAction (act : String) (s : List Char) : Option DirectiveMatch :=
  let ms :=
    match dropLeading ("-line").data s with
    | some r => (("line" : String), r)
    | none =>
      match dropLeading ("-next-line").data s with
      | some r => (("next-line" : String), r)
      | none => (("" : String), s)
  match parseAfterModifier ms.2 with
  | none => none
  | some rr => some ⟨act, ms.1, rr.1, rr.2⟩

/-- `directiveRegexp.FindStringSubmatch` for
`^//[\s]*revive:(enable|disable)(?:-(line|next-line))?(?::([^\s]+))?[\s]*(?: (.+))?$`,
as a deterministic matcher (every alternation point of this particular
regular expression is first-character disjoint, and each greedy repetition
is followed by a disjoint continuation, so maximal munch realises the
regexp's leftmost-greedy semantics; the backtracking of the final
`[\s]*(?: (.+))?$` is implemented by `reasonTail`). -/
def parseDirective (text : String) : Option DirectiveMatch :=
  match dropLeading (['/', '/']) text.data with
  | none => none
  | some s1 =>
    let s2 := s1.dropWhile goSpace
    match dropLeading ("revive:").data s2 with
    | none => none
    | some s3 =>
      match dropLeading ("enable").data s3 with
      | some s4 => parseAfterAction ("enable") s4
      | none =>
        match dropLeading ("disable").data s3 with
        | some s4 => parseAfterAction ("disable") s4
        | none => none

/-- `strings.Split(s, ",")`: split at every comma; the empty string
splits to one empty field. -/
def splitComma : List Char → List (List Char)
  | [] => [[]]
  | c :: cs =>
    match splitComma cs with
    | [] => [[]]
    | h :: t => if c = ',' then [] :: h :: t else (c :: h) :: t

/-- `strings.Trim(name, "\n")`: strip leading and trailing newline
characters. -/
def trimNewlines (s : String) : String :=
  String.mk (((s.data.dropWhile (fun c => c == '\n')).reverse.dropWhile
    (fun c => c == '\n')).reverse)

/-- `math.MaxInt32`, the sentinel upper bound of an unterminated disabled
interval. -/
def maxInt32 : Int := 2147483647

/-- The loop body of `getEnabledDisabledIntervals`: on an even event index
open a new interval ending at the sentinel, on an odd index close the last
opened interval at the event's position. -/
def addInterval (f : File) (ruleName : String) (acc : List DisabledInterval)
    (ie : Nat × enableDisableConfig) : List DisabledInterval :=
  if ie.1 % 2 = 0 then
    acc ++ [⟨ruleName, ⟨f.name, ie.2.position⟩, ⟨f.name, maxInt32⟩⟩]
  else
    match acc.getLast? with
    | some last => acc.dropLast ++ [⟨last.ruleName, last.From, ⟨last.To.filename, ie.2.position⟩⟩]
    | none => acc

/-- `getEnabledDisabledIntervals`: convert each rule's toggle-event list
into disabled intervals by consuming the events pairwise in order. -/
def getEnabledDisabledIntervals (f : File) (m : RulesEventsMap) : DisabledIntervalsMap :=
  m.map (fun p => (p.1, p.2.enum.foldl (addInterval f p.1) []))

/-- The `.enabled` flag of the last recorded event (only consulted when the
list has more than one event). -/
def lastEnabled (l : List enableDisableConfig) : Bool :=
  match l.getLast? with
  | some e => e.enabled
  | none => false

/-- `handleConfig`: record one toggle event for `name`.  A lookup miss
first creates the entry with an empty list (as the Go code stores the
fresh empty slice back into the map); the event is then appended unless
the list has more than one event whose last action equals the new one, or
the list is empty and the action is an enable. -/
def handleConfig (m : RulesEventsMap) (isEnabled : Bool) (line : Int) (name : String) :
    RulesEventsMap :=
  let existing := (m.lookup name).getD []
  let m1 := if (m.lookup name).isSome then m else upsert name [] m
  if (decide (existing.length > 1) && (lastEnabled existing == isEnabled)) ||
      (existing.isEmpty && isEnabled) then m1
  else upsert name (existing ++ [⟨isEnabled, line⟩]) m1

/-- `handleRules`: apply one directive to every target rule name; a
`line` modifier records a toggle and its immediate inverse at the comment
line, a `next-line` modifier does the same at the following line, and a
persistent directive records a single toggle. -/
def handleRules (m : RulesEventsMap) (modifier : String) (isEnabled : Bool) (line : Int)
    (ruleNames : List String) : RulesEventsMap :=
  ruleNames.foldl (fun m name =>
    if modifier = "line" then
      handleConfig (handleConfig m isEnabled line name) (!isEnabled) line name
    else if modifier = "next-line" then
      handleConfig (handleConfig m isEnabled (line + 1) name) (!isEnabled) (line + 1) name
    else
      handleConfig m isEnabled line name) m

/-- The body of `handleComment` for a single comment of a group: match the
directive grammar (non-matching comments are skipped), split and trim the
rule-name list, enforce the mandatory-reason policy for disables (emitting
the advisory finding and skipping the directive when the reason is blank),
expand an empty rule list to all configured rules, and record the toggles. -/
def processComment (rules : List Rule) (mustSpecifyDisableReason : Bool) (f : File)
    (line : Int) (st : RulesEventsMap × List Failure) (c : Comment) :
    RulesEventsMap × List Failure :=
  match parseDirective c.text with
  | none => st
  | some mtch =>
    let tempNames := (splitComma mtch.rules.data).map String.mk
    let ruleNames := (tempNames.map trimNewlines).filter (fun n => n ≠ "")
    let mustCheckDisablingReason := mustSpecifyDisableReason && (mtch.directive == "disable")
    if mustCheckDisablingReason && mtch.reason.data.all (fun ch => ch == ' ') then
      (st.1, st.2 ++ [⟨"reason of lint disabling not found", directiveSpecifyDisableReason,
        "", 1, ToFailurePosition c.pos c.endPos f, some ⟨c.pos, c.endPos⟩, false⟩])
    else
      let ruleNames := if ruleNames.isEmpty then rules.map (fun r => r.name) else ruleNames
      (handleRules st.1 mtch.modifier (mtch.directive == "enable") line ruleNames, st.2)

/-- `handleComment`: process every comment of a group, all at the line of
the group's end position. -/
def processGroup (rules : List Rule) (mustSpecifyDisableReason : Bool) (f : File)
    (st : RulesEventsMap × List Failure) (g : CommentGroup) :
    RulesEventsMap × List Failure :=
  g.list.foldl (processComment rules mustSpecifyDisableReason f
    (f.ToPositionLine g.endPos)) st

/-- The comment scan of `File.disabledIntervals`: fold every comment group
of the file into the toggle-event map, collecting the advisory findings
sent on the failure channel on the way. -/
def File.eventsAndFailures (f : File) (rules : List Rule)
    (mustSpecifyDisableReason : Bool) : RulesEventsMap × List Failure :=
  f.comments.foldl (processGroup rules mustSpecifyDisableReason f) ([], [])

/-- `File.disabledIntervals`: the disabled-interval mapping computed from
the file's comments, paired with the advisory findings emitted while
scanning them. -/
def File.disabledIntervals (f : File) (rules : List Rule)
    (mustSpecifyDisableReason : Bool) : DisabledIntervalsMap × List Failure :=
  let st := f.eventsAndFailures rules mustSpecifyDisableReason
  (getEnabledDisabledIntervals f st.1, st.2)

/-- The loop body of `File.filterFailures`: append the finding to the
result unless its start line or its end line falls inside one of the
intervals recorded for its rule name; a rule name absent from the mapping
keeps all its findings. -/
def filterStep (disabledIntervals : DisabledIntervalsMap) (result : List Failure)
    (failure : Failure) : List Failure :=
  let fStart := failure.position.startLine
  let fEnd := failure.position.endLine
  match disabledIntervals.lookup failure.ruleName with
  | none => result ++ [failure]
  | some intervals =>
    if intervals.any (fun interval =>
        (decide (fStart ≥ interval.From.line) && decide (fStart ≤ interval.To.line)) ||
        (decide (fEnd ≥ interval.From.line) && decide (fEnd ≤ interval.To.line))) then
      result
    else result ++ [failure]

/-- `File.filterFailures`: the suppression step of the pipeline. -/
def filterFailures (failures : List Failure) (disabledIntervals : DisabledIntervalsMap) :
    List Failure :=
  failures.foldl (filterStep disabledIntervals) []

/-- The normalization step of the `lint` loop: assign the current rule's
name when the finding's rule name is empty, and resolve the position range
from the node reference whenever a node reference is present. -/
def normalizeFailure (f : File) (ruleName : String) (fl : Failure) : Failure :=
  let fl1 := if fl.ruleName = "" then { fl with ruleName := ruleName } else fl
  match fl1.node with
  | some n => { fl1 with position := ToFailurePosition n.pos n.endPos f }
  | none => fl1

/-- The first internal finding of a rule's raw output, if any (the `lint`
loop checks `IsInternal` on each raw finding in order and aborts at the
first hit). -/
def firstInternal : List Failure → Option Failure
  | [] => none
  | fl :: rest => if fl.IsInternal then some fl else firstInternal rest

/-- The per-rule tail of `File.lint`: for each rule in order, skip it when
its config excludes the file, abort the whole pass with the message of the
first internal finding otherwise produced, and else normalize, suppress,
confidence-gate and emit its findings before continuing with the remaining
rules. -/
def lintRules (f : File) (config : Config) (dmap : DisabledIntervalsMap) :
    List Rule → List Failure × Option String
  | [] => ([], none)
  | r :: rest =>
    let ruleConfig := config.ruleConfigOf r.name
    if ruleConfig.mustExclude f.name then lintRules f config dmap rest
    else
      let currentFailures := r.apply f ruleConfig.arguments
      match firstInternal currentFailures with
      | some fl => ([], some fl.failure)
      | none =>
        let normalized := currentFailures.map (normalizeFailure f r.name)
        let filtered := filterFailures normalized dmap
        let emittedHere := filtered.filter (fun fl => fl.confidence ≥ config.confidence)
        let restResult := lintRules f config dmap rest
        (emittedHere ++ restResult.1, restResult.2)

/-- `File.lint`: compute the disabled intervals (emitting any advisory
findings first, as the channel sends of `disabledIntervals` happen before
any rule runs), then run every rule in order.  The first component is the
ordered sequence of findings sent on the failure channel; the second is the
session-level error of a fatal abort, if any. -/
def File.lint (f : File) (rules : List Rule) (config : Config) :
    List Failure × Option String :=
  let mustSpecifyDisableReason := config.directives.contains directiveSpecifyDisableReason
  let dres := f.disabledIntervals rules mustSpecifyDisableReason
  let res := lintRules f config dres.1 rules
  (dres.2 ++ res.1, res.2)

/-! ## Derived predicates and scenario material used by the verification -/

/-- The drop decision of `filterStep` for one finding, as a predicate: true
exactly when the finding's start line or end line falls inside some interval
recorded for its rule name. -/
def shouldDrop (m : DisabledIntervalsMap) (fl : Failure) : Bool :=
  match m.lookup fl.ruleName with
  | none => false
  | some intervals =>
    intervals.any (fun interval =>
      (decide (fl.position.startLine ≥ interval.From.line) &&
        decide (fl.position.startLine ≤ interval.To.line)) ||
      (decide (fl.position.endLine ≥ interval.From.line) &&
        decide (fl.position.endLine ≤ interval.To.line)))

/-- Follows the spec's words (for comparison with the code's overlap test):
the finding's line range intersects the interval, i.e. some line belongs to
both the finding's `[start,end]` range and the interval's `[From,To]`
range. -/
def rangeIntersects (fl : Failure) (iv : DisabledInterval) : Prop :=
  ∃ l : Int, fl.position.startLine ≤ l ∧ l ≤ fl.position.endLine ∧
    iv.From.line ≤ l ∧ l ≤ iv.To.line

/-- A single-line `//` comment on the given line, in a comment group of its
own (its start and end positions resolve to that line). -/
def mkComment (text : String) (line : Int) : CommentGroup :=
  ⟨[⟨text, line, line⟩]⟩

/-- A test file whose position-resolution context is the identity (comment
positions are their line numbers). -/
def mkFile (gs : List CommentGroup) : File :=
  ⟨"test.go", gs, fun p => p⟩

/-- A non-internal finding of the given rule spanning the given lines, with
confidence 1 and no node reference. -/
def mkFailure (rule : String) (s e : Int) : Failure :=
  ⟨"msg", rule, "", 1, ⟨s, e⟩, none, false⟩

/-- A rule producing a fixed list of findings on every file. -/
def mkRule (n : String) (out : List Failure) : Rule :=
  ⟨n, fun _ _ => out⟩

/-- A file containing `//revive:disable:r1` at line `l1` and
`//revive:enable:r1` at line `l2`. -/
def persistFile (l1 l2 : Int) : File :=
  mkFile [mkComment ("//revive:disable:r1") l1, mkComment ("//revive:enable:r1") l2]

/-- A file whose only directive is `//revive:disable-line:r1` at line `l`. -/
def lineScopeFile (l : Int) : File :=
  mkFile [mkComment ("//revive:disable-line:r1") l]

/-- A file whose only directive is `//revive:disable-next-line:r1` at line
`l`. -/
def nextLineScopeFile (l : Int) : File :=
  mkFile [mkComment ("//revive:disable-next-line:r1") l]

/-- A file whose only directive is `//revive:disable:r1` at line `l`. -/
def soloDisableFile (l : Int) : File :=
  mkFile [mkComment ("//revive:disable:r1") l]

/-- A file with two bare `//revive:disable:r1` directives and no enable. -/
def doubleDisableFile : File :=
  mkFile [mkComment ("//revive:disable:r1") 1, mkComment ("//revive:disable:r1") 5]

/-- The whole-file abort helper: the error message a rule's invocation would
abort the per-file pass with (the message of the first internal finding it
yields), or `none` when it is excluded for this file or yields no internal
finding. -/
def ruleAborts (f : File) (config : Config) (r : Rule) : Option String :=
  if (config.ruleConfigOf r.name).mustExclude f.name then none
  else (firstInternal (r.apply f (config.ruleConfigOf r.name).arguments)).map
    (fun fl => fl.failure)

/-- The findings one rule's invocation contributes to the output stream
(normalized, suppression-filtered and confidence-gated), when it does not
abort. -/
def ruleEmissions (f : File) (config : Config) (dmap : DisabledIntervalsMap)
    (r : Rule) : List Failure :=
  if (config.ruleConfigOf r.name).mustExclude f.name then []
  else ((filterFailures ((r.apply f (config.ruleConfigOf r.name).arguments).map
    (normalizeFailure f r.name)) dmap).filter
      (fun fl => fl.confidence ≥ config.confidence))

/-- The dedup shape that actually holds of every per-rule toggle-event list:
the first recorded event is a disable, and from the third event on,
consecutive events alternate (the second event may duplicate the first,
because the code's dedup guard only fires once the list has more than one
event). -/
def dedupInvariant (l : List enableDisableConfig) : Prop :=
  (∀ e, l.head? = some e → e.enabled = false) ∧
  (∀ i a b, l.get? (i + 1) = some a → l.get? (i + 2) = some b → b.enabled ≠ a.enabled)

/-- Follows the spec's words: the tail `(\s+.+)?` of the claimed directive
grammar, as an end-anchored recognizer (one or more whitespace characters
followed by a nonempty newline-free reason, or nothing at all). -/
def specReasonAfterSpace : List Char → Bool
  | [] => false
  | c :: cs => (c :: cs).all (fun d => d != '\n') || (goSpace c && specReasonAfterSpace cs)

/-- Follows the spec's words: recognizer for the tail `(\s+.+)?$`. -/
def specReasonTail : List Char → Bool
  | [] => true
  | c :: cs => goSpace c && specReasonAfterSpace cs

/-- Follows the spec's words: full-match recognizer for the claimed
directive grammar `//\s*revive:(enable|disable)(-(line|next-line))?(:[^\s]+)?(\s+.+)?`,
which differs from the code's regexp only in its reason tail. -/
def specGrammarAccepts (text : String) : Bool :=
  match dropLeading (['/', '/']) text.data with
  | none => false
  | some s1 =>
    let s2 := s1.dropWhile goSpace
    match dropLeading ("revive:").data s2 with
    | none => false
    | some s3 =>
      let afterAction :=
        match dropLeading ("enable").data s3 with
        | some s4 => some s4
        | none => dropLeading ("disable").data s3
      match afterAction with
      | none => false
      | some s4 =>
        let s5 :=
          match dropLeading ("-line").data s4 with
          | some r => r
          | none =>
            match dropLeading ("-next-line").data s4 with
            | some r => r
            | none => s4
        let s6 :=
          match s5 with
          | ':' :: rest =>
            let r := rest.takeWhile (fun c => !goSpace c)
            if r.isEmpty then s5 else rest.dropWhile (fun c => !goSpace c)
          | _ => s5
        specReasonTail s6

/-- A whitespace run of the Go regexp's `\s` class. -/
def WSRun (l : List Char) : Prop := ∀ c ∈ l, goSpace c = true

/-- A newline-free character run (what `.` can match). -/
def NoNewline (l : List Char) : Prop := ∀ c ∈ l, c ≠ '\n'

/-- The language of the regexp tail `[\s]*(?: (.+))?$`: all whitespace, or
whitespace followed by a single space and a nonempty newline-free
reason. -/
def TailLang (t : List Char) : Prop :=
  WSRun t ∨ ∃ u v : List Char, WSRun u ∧ v ≠ [] ∧ NoNewline v ∧ t = u ++ ' ' :: v

/-- The language of the optional rule-list group `(?::([^\s]+))?`: empty,
or a colon followed by a nonempty run of non-whitespace characters. -/
def RulesOpt (rp : List Char) : Prop :=
  rp = ([] : List Char) ∨
    ∃ x : List Char, x ≠ [] ∧ (∀ c ∈ x, goSpace c = false) ∧ rp = ':' :: x

/-- The language of the code's actual directive regexp
`^//[\s]*revive:(enable|disable)(?:-(line|next-line))?(?::([^\s]+))?[\s]*(?: (.+))?$`,
as an explicit decomposition: leading `//`, a whitespace run, the literal
`revive:`, an action word, an optional scope modifier, an optional colon
with a nonempty non-whitespace rule list, and a tail that is either all
whitespace or whitespace followed by a single space and a nonempty
newline-free reason. -/
def matchesDirectiveRegexp (s : String) : Prop :=
  ∃ (w : List Char) (act mod : String) (rulesPart tl : List Char),
    (act = ("enable" : String) ∨ act = ("disable" : String)) ∧
    (mod = ("" : String) ∨ mod = ("-line" : String) ∨ mod = ("-next-line" : String)) ∧
    RulesOpt rulesPart ∧
    TailLang tl ∧
    WSRun w ∧
    s.data = '/' :: '/' :: (w ++ ("revive:").data ++ act.data ++ mod.data ++ rulesPart ++ tl)

/-- The computed disabled-interval mapping of `persistFile 3 5`:
`r1` disabled on `[3,5]`. -/
def c1Map : DisabledIntervalsMap := ((persistFile 3 5).disabledIntervals [] false).1

/-- A finding of rule `r1` spanning lines 1 to 10 (its range strictly
contains the interval `[3,5]`). -/
def c1Failure : Failure := mkFailure ("r1") 1 10

/-- An internal finding, as yielded by a faulty rule. -/
def w2Internal : Failure := ⟨"boom", "", "", 0, ⟨0, 0⟩, none, true⟩

/-- A well-behaved rule emitting one ordinary finding. -/
def w2RuleA : Rule := mkRule ("ra") [mkFailure ("ra") 4 4]

/-- A rule yielding an internal finding. -/
def w2RuleB : Rule := mkRule ("rb") [w2Internal]

/-- A rule that would emit an ordinary finding, ordered after the faulty
rule. -/
def w2RuleC : Rule := mkRule ("rc") [mkFailure ("rc") 6 6]

/-- A configuration with zero confidence threshold, no per-rule settings
and no directive policies. -/
def zeroConfig : Config := ⟨0, [], []⟩

/-- A file with a single bare `//revive:disable:r1` directive at line 1. -/
def c3File1 : File := mkFile [mkComment ("//revive:disable:r1") 1]

/-- A comment line the code's regexp accepts (a bare disable with one
trailing space) but the claimed grammar rejects. -/
def c4Text : String := "//revive:disable "

/-- A file whose only comment is `c4Text`, at line 1. -/
def c4File : File := mkFile [mkComment c4Text 1]

/-- A file with a disable directive for `r1` carrying a reason, at line
`l`. -/
def c5ReasonFile (l : Int) : File :=
  mkFile [mkComment ("//revive:disable:r1 not needed here") l]

/-- The advisory finding the mandatory-reason policy emits for a bare
disable whose comment spans line `l`. -/
def c5Advisory (l : Int) : Failure :=
  ⟨"reason of lint disabling not found", directiveSpecifyDisableReason, "", 1,
    ⟨l, l⟩, some ⟨l, l⟩, false⟩

/-- A rule of name `r1` emitting one given finding. -/
def r1RuleWith (fl : Failure) : Rule := mkRule ("r1") [fl]

/-- The configuration activating the mandatory disable-reason policy. -/
def reasonPolicyConfig : Config := ⟨0, [], [directiveSpecifyDisableReason]⟩

/-- Directive context for the line-scope counterexample: `r1` is disabled
at line 1, re-enabled at line 3, disabled again at line 4, and then a
`//revive:disable-line:r1` appears at line 6. -/
def c6WithFile : File :=
  mkFile [mkComment ("//revive:disable:r1") 1, mkComment ("//revive:enable:r1") 3,
    mkComment ("//revive:disable:r1") 4, mkComment ("//revive:disable-line:r1") 6]

/-- The same file without the `//revive:disable-line:r1` directive. -/
def c6WithoutFile : File :=
  mkFile [mkComment ("//revive:disable:r1") 1, mkComment ("//revive:enable:r1") 3,
    mkComment ("//revive:disable:r1") 4]

/-- A finding of rule `r1` at line 10. -/
def c6Failure10 : Failure := mkFailure ("r1") 10 10

/-- A finding of rule `r1` at line 9. -/
def c7Failure9 : Failure := mkFailure ("r1") 9 9

/-- A raw finding carrying both an explicit position (lines 1-2) and a
node reference (positions 70-80). -/
def c8Failure : Failure := ⟨"m", "r1", "", 1, ⟨1, 2⟩, some ⟨70, 80⟩, false⟩

/-- A rule of name `r1` yielding `c8Failure`. -/
def c8Rule : Rule := mkRule ("r1") [c8Failure]

/-- A commentless file. -/
def emptyFile : File := mkFile []

/-- A file whose only directive is an enable for `r1` with no pending
disable. -/
def c10File : File := mkFile [mkComment ("//revive:enable:r1") 2]

/-! ## Helper lemmas -/

theorem filterStep_eq (m : DisabledIntervalsMap) (res : List Failure) (fl : Failure) :
    filterStep m res fl = if shouldDrop m fl then res else res ++ [fl] := by
  unfold filterStep shouldDrop
  cases h : m.lookup fl.ruleName <;> simp [h]

theorem foldl_filterStep (m : DisabledIntervalsMap) :
    ∀ (fs acc : List Failure),
      fs.foldl (filterStep m) acc = acc ++ fs.filter (fun fl => !shouldDrop m fl)
  | [], acc => by simp
  | fl :: fs, acc => by
    rw [List.foldl_cons, foldl_filterStep m fs, filterStep_eq, List.filter_cons]
    by_cases h : shouldDrop m fl <;> simp [h]

theorem filterFailures_eq_filter (fs : List Failure) (m : DisabledIntervalsMap) :
    filterFailures fs m = fs.filter (fun fl => !shouldDrop m fl) := by
  simp [filterFailures, foldl_filterStep]

theorem filterFailures_singleton (fl : Failure) (m : DisabledIntervalsMap) :
    filterFailures [fl] m = if shouldDrop m fl then [] else [fl] := by
  by_cases h : shouldDrop m fl <;> simp [filterFailures_eq_filter, h]

/-! ## C1 -/

/-- C1, counterexample: a finding of rule `r1` spanning lines 1-10 whose
range intersects the computed disabled interval `[3,5]` for `r1` is
nevertheless kept by the suppression step, because neither its start line
nor its end line falls inside the interval.  This refutes "drops the
finding if and only if the finding's line range intersects some disabled
interval recorded for the finding's rule name". -/
theorem c1_counterexample :
    (∃ iv ∈ (c1Map.lookup c1Failure.ruleName).getD [], rangeIntersects c1Failure iv) ∧
    filterFailures [c1Failure] c1Map = [c1Failure] := by
  constructor
  · exact ⟨⟨"r1", ⟨"test.go", 3⟩, ⟨"test.go", 5⟩⟩, by decide, 3, by decide, by decide,
      by decide, by decide⟩
  · decide

/-- C1, amended: the suppression step drops a finding if and only if the
finding's start line or its end line falls within some disabled interval
recorded for the finding's rule name; in particular, given
`//revive:disable:R` at line L1 and a later `//revive:enable:R` at line L2
(L1 < L2), any finding from rule R whose start or end line is in [L1,L2] is
dropped, while findings from other rules in the same range are kept. -/
theorem c1_amended :
    (∀ (fs : List Failure) (m : DisabledIntervalsMap),
      filterFailures fs m = fs.filter (fun fl => !shouldDrop m fl)) ∧
    (∀ l1 l2 s e : Int, l1 < l2 →
      (((l1 ≤ s ∧ s ≤ l2) ∨ (l1 ≤ e ∧ e ≤ l2)) →
        filterFailures [mkFailure ("r1") s e]
          ((persistFile l1 l2).disabledIntervals [] false).1 = []) ∧
      filterFailures [mkFailure ("r2") s e]
        ((persistFile l1 l2).disabledIntervals [] false).1 = [mkFailure ("r2") s e]) := by
  refine ⟨filterFailures_eq_filter, ?_⟩
  intro l1 l2 s e _
  have hm : ((persistFile l1 l2).disabledIntervals [] false).1 =
      [(("r1" : String), [⟨"r1", ⟨"test.go", l1⟩, ⟨"test.go", l2⟩⟩])] := rfl
  rw [hm]
  constructor
  · intro h
    rw [filterFailures_singleton, if_pos]
    simp only [shouldDrop, mkFailure, List.lookup]
    rcases h with ⟨h1, h2⟩ | ⟨h1, h2⟩ <;> simp [h1, h2]
  · rw [filterFailures_singleton, if_neg]
    simp [shouldDrop, mkFailure, List.lookup]

/-- C1, witness for the amended theorem at L1 = 2, L2 = 4: a finding of
`r1` at line 3 is dropped and a finding of `r2` at line 3 is kept. -/
theorem c1_witness :
    filterFailures [mkFailure ("r1") 3 3] ((persistFile 2 4).disabledIntervals [] false).1
        = [] ∧
    filterFailures [mkFailure ("r2") 3 3] ((persistFile 2 4).disabledIntervals [] false).1
        = [mkFailure ("r2") 3 3] :=
  ⟨(c1_amended.2 2 4 3 3 (by norm_num)).1 (Or.inl ⟨by norm_num, by norm_num⟩),
    (c1_amended.2 2 4 3 3 (by norm_num)).2⟩

/-! ## C9 -/

/-- C9: the pipeline is a pure function of the SourceUnit, the rules and
the configuration, so running it twice on the same inputs produces the same
ordered sequence of emitted findings (and the same abort outcome), and the
disabled-interval construction computed twice from the same comment set
yields identical interval mappings.  The Go sources' only nondeterminism
(map iteration order inside `getEnabledDisabledIntervals`) never reaches an
observable output, since it only builds a map keyed by rule name that is
subsequently read by lookups. -/
theorem c9_determinism :
    ∀ (f : File) (rules : List Rule) (config : Config) (ms : Bool),
      File.lint f rules config = File.lint f rules config ∧
      File.disabledIntervals f rules ms = File.disabledIntervals f rules ms :=
  fun _ _ _ _ => ⟨rfl, rfl⟩

/-! ## C10 -/

/-- C10: an enable directive for a rule with no pending disable creates an
entry with an empty interval list in the output mapping; the suppression
filter keeps every finding of a rule whose interval list is empty, and such
an entry behaves identically to the rule name being absent from the
mapping. -/
theorem c10_empty_entry :
    ((c10File.disabledIntervals [] false).1 = [(("r1" : String), ([] : List DisabledInterval))]) ∧
    (∀ (fs : List Failure) (m : DisabledIntervalsMap),
      (∀ fl ∈ fs, m.lookup fl.ruleName = some []) → filterFailures fs m = fs) ∧
    (∀ (fs : List Failure) (name : String) (m m1 : DisabledIntervalsMap),
      m.lookup name = some [] → m1.lookup name = none →
      (∀ n, n ≠ name → m.lookup n = m1.lookup n) →
      filterFailures fs m = filterFailures fs m1) := by
  refine ⟨rfl, ?_, ?_⟩
  · intro fs m h
    rw [filterFailures_eq_filter]
    apply List.filter_eq_self.mpr
    intro fl hfl
    simp [shouldDrop, h fl hfl]
  · intro fs name m m1 h h1 hagree
    rw [filterFailures_eq_filter, filterFailures_eq_filter]
    apply List.filter_congr
    intro fl _
    by_cases hn : fl.ruleName = name
    · simp [shouldDrop, hn, h, h1]
    · simp [shouldDrop, hagree fl.ruleName hn]

/-- C10, witness: a finding of `r1` at line 7 is kept when the mapping has
the entry `("r1", [])`, and the filter result coincides with the result for
the empty mapping. -/
theorem c10_witness :
    filterFailures [mkFailure ("r1") 7 7] [(("r1" : String), ([] : List DisabledInterval))]
        = [mkFailure ("r1") 7 7] ∧
    filterFailures [mkFailure ("r1") 7 7] [(("r1" : String), ([] : List DisabledInterval))]
        = filterFailures [mkFailure ("r1") 7 7] [] :=
  ⟨c10_empty_entry.2.1 _ _ (by decide),
    c10_empty_entry.2.2 _ ("r1") _ _ (by decide) (by decide)
      (fun n hn => by
        have hb : (n == "r1") = false := by simp [hn]
        simp [List.lookup, hb])⟩

/-! ## C3 -/

/-- C3, counterexample: after a single `//revive:disable:r1` at line 1 the
pending state of `r1` is a disable, yet a second `//revive:disable:r1` at
line 5 appends another disable event (the code's dedup guard only fires
when the list already has more than one event), refuting "a disable event
is never appended when the pending state is already disabled". -/
theorem c3_counterexample :
    ((c3File1.eventsAndFailures [] false).1.lookup ("r1") =
      some [⟨false, 1⟩]) ∧
    ((doubleDisableFile.eventsAndFailures [] false).1.lookup ("r1") =
      some [⟨false, 1⟩, ⟨false, 5⟩]) := by
  decide

theorem lookup_cons_ne {α : Type} {k1 k2 : String} (v : α) (es : List (String × α))
    (h : k1 ≠ k2) : ((k2, v) :: es).lookup k1 = es.lookup k1 := by
  have hb : (k1 == k2) = false := by simp [h]
  simp [List.lookup_cons, hb]

theorem lookup_upsert {α : Type} (k : String) (v : α) :
    ∀ (m : List (String × α)) (k1 : String),
      (upsert k v m).lookup k1 = if k1 = k then some v else m.lookup k1
  | [], k1 => by
    by_cases h : k1 = k
    · subst h; simp [upsert]
    · simp [upsert, lookup_cons_ne v [] h, h]
  | (k2, v2) :: rest, k1 => by
    unfold upsert
    by_cases h2 : k2 = k
    · rw [if_pos h2]
      by_cases h1 : k1 = k
      · subst h1; rw [if_pos rfl, List.lookup_cons_self]
      · rw [if_neg h1, lookup_cons_ne v rest h1, lookup_cons_ne v2 rest (h2 ▸ h1)]
    · rw [if_neg h2]
      by_cases h1 : k1 = k2
      · subst h1
        rw [if_neg h2, List.lookup_cons_self, List.lookup_cons_self]
      · rw [lookup_cons_ne v2 _ h1, lookup_cons_ne v2 rest h1, lookup_upsert k v rest]

/-- Every per-rule event list of a map satisfies the dedup shape. -/
def InvariantMap (m : RulesEventsMap) : Prop :=
  ∀ name l, m.lookup name = some l → dedupInvariant l

theorem dedupInvariant_nil : dedupInvariant [] := by
  constructor
  · intro e h; simp at h
  · intro i a b h; simp at h

theorem dedupInvariant_append (l : List enableDisableConfig) (b : Bool) (line : Int)
    (hl : dedupInvariant l)
    (hguard : ((decide (l.length > 1) && (lastEnabled l == b)) || (l.isEmpty && b)) = false) :
    dedupInvariant (l ++ [⟨b, line⟩]) := by
  obtain ⟨hhead, halt⟩ := hl
  constructor
  · intro e he
    cases l with
    | nil =>
      have he2 : e = ⟨b, line⟩ := by simpa using he.symm
      have hb : b = false := by simpa using hguard
      rw [he2]
      exact hb
    | cons x xs =>
      have hx : e = x := by simpa using he.symm
      exact hx ▸ hhead x rfl
  · intro i a b1 ha hb
    by_cases hlt : i + 2 < l.length
    · have ha1 : l.get? (i + 1) = some a := by
        rw [← ha]; exact (List.get?_append (by omega)).symm
      have hb1 : l.get? (i + 2) = some b1 := by
        rw [← hb]; exact (List.get?_append hlt).symm
      exact halt i a b1 ha1 hb1
    · by_cases heq : i + 2 = l.length
      · have hb2 : b1 = ⟨b, line⟩ := by
          have := List.get?_concat_length l (⟨b, line⟩ : enableDisableConfig)
          rw [← heq] at this
          rw [this] at hb
          exact (Option.some.injEq _ _ ▸ hb).symm
        have hlen : l.length > 1 := by omega
        have hlast : (lastEnabled l == b) = false := by
          rcases Bool.or_eq_false_iff.mp hguard with ⟨h1, _⟩
          have : decide (l.length > 1) = true := by simpa using hlen
          simpa [this] using Bool.and_eq_false_iff.mp h1
        have ha1 : l.get? (i + 1) = some a := by
          rw [← ha]; exact (List.get?_append (by omega)).symm
        have hlastval : l.getLast? = some a := by
          rw [List.getLast?_eq_get?]
          have : l.length - 1 = i + 1 := by omega
          rw [this]; exact ha1
        have : lastEnabled l = a.enabled := by
          simp [lastEnabled, hlastval]
        rw [hb2]
        simp only [ne_eq]
        intro hcontra
        rw [this] at hlast
        rw [hcontra] at hlast
        simp at hlast
      · exfalso
        have : (l ++ [(⟨b, line⟩ : enableDisableConfig)]).get? (i + 2) = none := by
          apply List.get?_eq_none.mpr
          simp only [List.length_append, List.length_singleton]
          omega
        rw [this] at hb
        exact Option.noConfusion hb

theorem handleConfig_preserves (m : RulesEventsMap) (b : Bool) (line : Int) (name : String)
    (h : InvariantMap m) : InvariantMap (handleConfig m b line name) := by
  have hex : dedupInvariant ((m.lookup name).getD []) := by
    cases hl : m.lookup name with
    | none => simpa using dedupInvariant_nil
    | some l => simpa using h name l hl
  have hm1 : InvariantMap (if (m.lookup name).isSome then m else upsert name [] m) := by
    split
    · exact h
    · intro n l hl
      rw [lookup_upsert] at hl
      split at hl
      · cases hl; exact dedupInvariant_nil
      · exact h n l hl
  intro n l hl
  simp only [handleConfig] at hl
  by_cases hguard : ((decide (((m.lookup name).getD []).length > 1) &&
      (lastEnabled ((m.lookup name).getD []) == b)) ||
      (((m.lookup name).getD []).isEmpty && b)) = true
  · rw [if_pos hguard] at hl
    exact hm1 n l hl
  · rw [if_neg hguard] at hl
    rw [lookup_upsert] at hl
    split at hl
    · cases hl
      exact dedupInvariant_append _ _ _ hex (Bool.of_not_eq_true hguard)
    · exact hm1 n l hl

theorem handleRules_preserves (modifier : String) (b : Bool) (line : Int) :
    ∀ (names : List String) (m : RulesEventsMap),
      InvariantMap m → InvariantMap (handleRules m modifier b line names)
  | [], m, h => h
  | n :: ns, m, h => by
    have step : ∀ (m1 : RulesEventsMap), InvariantMap m1 →
        InvariantMap (if modifier = "line" then
          handleConfig (handleConfig m1 b line n) (!b) line n
        else if modifier = "next-line" then
          handleConfig (handleConfig m1 b (line + 1) n) (!b) (line + 1) n
        else handleConfig m1 b line n) := by
      intro m1 h1
      split
      · exact handleConfig_preserves _ _ _ _ (handleConfig_preserves _ _ _ _ h1)
      · split
        · exact handleConfig_preserves _ _ _ _ (handleConfig_preserves _ _ _ _ h1)
        · exact handleConfig_preserves _ _ _ _ h1
    exact handleRules_preserves modifier b line ns _ (step m h)

theorem processComment_preserves (rules : List Rule) (ms : Bool) (f : File) (line : Int)
    (st : RulesEventsMap × List Failure) (c : Comment) (h : InvariantMap st.1) :
    InvariantMap (processComment rules ms f line st c).1 := by
  unfold processComment
  cases parseDirective c.text with
  | none => exact h
  | some mtch =>
    simp only
    split
    · exact h
    · exact handleRules_preserves _ _ _ _ _ h

theorem processGroup_preserves (rules : List Rule) (ms : Bool) (f : File) :
    ∀ (cs : List Comment) (line : Int) (st : RulesEventsMap × List Failure),
      InvariantMap st.1 →
      InvariantMap (cs.foldl (processComment rules ms f line) st).1
  | [], _, st, h => h
  | c :: cs, line, st, h =>
    processGroup_preserves rules ms f cs line _
      (processComment_preserves rules ms f line st c h)

theorem eventsMap_preserves (rules : List Rule) (ms : Bool) (f : File) :
    ∀ (gs : List CommentGroup) (st : RulesEventsMap × List Failure),
      InvariantMap st.1 →
      InvariantMap (gs.foldl (processGroup rules ms f) st).1
  | [], st, h => h
  | g :: gs, st, h =>
    eventsMap_preserves rules ms f gs _ (processGroup_preserves rules ms f g.list _ st h)

/-- C3, amended: the dedup guard fires only when the per-rule event list
already has more than one event (or is empty and the event is an enable),
so the shape that actually holds of every per-rule toggle-event list built
from a file's directive comments is: the first recorded event is a disable,
and from the third event on consecutive events alternate; a second event
may duplicate the first (a disable can be appended while a single disable is
already pending). -/
theorem c3_amended (f : File) (rules : List Rule) (ms : Bool) (name : String)
    (l : List enableDisableConfig)
    (h : (f.eventsAndFailures rules ms).1.lookup name = some l) : dedupInvariant l := by
  have : InvariantMap (f.eventsAndFailures rules ms).1 := by
    unfold File.eventsAndFailures
    apply eventsMap_preserves
    intro n l1 hl1
    simp [List.lookup] at hl1
  exact this name l h

/-- C3, witness: the event list `[disable@1, disable@5]` computed from
`doubleDisableFile` satisfies the amended dedup shape. -/
theorem c3_witness :
    dedupInvariant [⟨false, 1⟩, ⟨false, 5⟩] :=
  c3_amended doubleDisableFile [] false ("r1") [⟨false, 1⟩, ⟨false, 5⟩] (by decide)

/-! ## C6 and C7 -/

theorem shouldDrop_singleton_iff (nm : String) (a b s e : Int) :
    shouldDrop [(nm, [⟨nm, ⟨"test.go", a⟩, ⟨"test.go", b⟩⟩])] (mkFailure nm s e) = true
      ↔ ((a ≤ s ∧ s ≤ b) ∨ (a ≤ e ∧ e ≤ b)) := by
  simp [shouldDrop, mkFailure, List.lookup_cons_self]

theorem singleton_interval_drop_iff (nm : String) (a b s e : Int) :
    filterFailures [mkFailure nm s e] [(nm, [⟨nm, ⟨"test.go", a⟩, ⟨"test.go", b⟩⟩])] = []
      ↔ ((a ≤ s ∧ s ≤ b) ∨ (a ≤ e ∧ e ≤ b)) := by
  rw [filterFailures_singleton]
  by_cases hd : shouldDrop [(nm, [⟨nm, ⟨"test.go", a⟩, ⟨"test.go", b⟩⟩])] (mkFailure nm s e)
  · simp only [if_pos hd, true_iff]
    simpa using (shouldDrop_singleton_iff nm a b s e).mp hd
  · simp only [if_neg hd]
    constructor
    · intro h; exact absurd h (by simp)
    · intro h
      exact absurd ((shouldDrop_singleton_iff nm a b s e).mpr h) hd

/-- C6, counterexample: in a file that disables `r1` at line 1, re-enables
it at line 3 and disables it again at line 4, appending a
`//revive:disable-line:r1` at line 6 changes the outcome for a finding of
`r1` at line 10: without the line-scoped directive the finding is dropped
(the disable at 4 runs to end of file), with it the finding is kept.  The
line-scoped directive's effect is therefore not confined to its own line,
refuting the claim's final clause. -/
theorem c6_counterexample :
    filterFailures [c6Failure10] ((c6WithFile.disabledIntervals [] false).1)
        = [c6Failure10] ∧
    filterFailures [c6Failure10] ((c6WithoutFile.disabledIntervals [] false).1) = [] := by
  decide

/-- C6, amended: in a file where it is the only directive,
`//revive:disable-line:r1` on line L records exactly the interval [L,L] and
drops a finding of `r1` exactly when its start or end line equals L (so a
finding at L+1 is kept), and `//revive:disable-next-line:r1` on line L
records exactly [L+1,L+1] and drops exactly the findings whose start or end
line equals L+1; in the presence of other directives for the same rule the
line-scoped directive's effect can extend beyond that one line. -/
theorem c6_amended (l s e : Int) :
    ((lineScopeFile l).disabledIntervals [] false).1 =
      [(("r1" : String), [⟨"r1", ⟨"test.go", l⟩, ⟨"test.go", l⟩⟩])] ∧
    (filterFailures [mkFailure ("r1") s e] ((lineScopeFile l).disabledIntervals [] false).1
        = [] ↔ (s = l ∨ e = l)) ∧
    ((nextLineScopeFile l).disabledIntervals [] false).1 =
      [(("r1" : String), [⟨"r1", ⟨"test.go", l + 1⟩, ⟨"test.go", l + 1⟩⟩])] ∧
    (filterFailures [mkFailure ("r1") s e]
        ((nextLineScopeFile l).disabledIntervals [] false).1
        = [] ↔ (s = l + 1 ∨ e = l + 1)) := by
  refine ⟨rfl, ?_, rfl, ?_⟩
  · have hm : ((lineScopeFile l).disabledIntervals [] false).1 =
        [(("r1" : String), [⟨"r1", ⟨"test.go", l⟩, ⟨"test.go", l⟩⟩])] := rfl
    rw [hm, singleton_interval_drop_iff]
    omega
  · have hm : ((nextLineScopeFile l).disabledIntervals [] false).1 =
        [(("r1" : String), [⟨"r1", ⟨"test.go", l + 1⟩, ⟨"test.go", l + 1⟩⟩])] := rfl
    rw [hm, singleton_interval_drop_iff]
    omega

/-- C6, witness for the amended theorem: with the sole directive
`//revive:disable-line:r1` at line 5 a finding of `r1` at line 5 is
dropped, and with the sole directive `//revive:disable-next-line:r1` at
line 5 a finding of `r1` at line 6 is dropped. -/
theorem c6_witness :
    filterFailures [mkFailure ("r1") 5 5] ((lineScopeFile 5).disabledIntervals [] false).1
        = [] ∧
    filterFailures [mkFailure ("r1") 6 6]
        ((nextLineScopeFile 5).disabledIntervals [] false).1 = [] :=
  ⟨(c6_amended 5 5 5).2.1.mpr (Or.inl rfl), (c6_amended 5 6 6).2.2.2.mpr (Or.inl rfl)⟩

/-- C7, counterexample: `doubleDisableFile` contains `//revive:disable:r1`
at line 5 with no matching later enable, yet the pairwise interval
conversion pairs it with the disable at line 1 into the closed interval
[1,5], and a finding of `r1` at line 9 is kept — refuting "suppresses all
findings from rule R from the directive's line through the end of the
file". -/
theorem c7_counterexample :
    ((doubleDisableFile.disabledIntervals [] false).1 =
      [(("r1" : String), [⟨"r1", ⟨"test.go", 1⟩, ⟨"test.go", 5⟩⟩])]) ∧
    filterFailures [c7Failure9] ((doubleDisableFile.disabledIntervals [] false).1)
        = [c7Failure9] := by
  decide

/-- C7, amended: a `//revive:disable:R` directive that is the only
directive for rule R in the file leaves an unpaired trailing disable event,
which is converted into an interval whose upper bound is the sentinel
maximum line `math.MaxInt32`; every finding of R whose start line lies
between the directive's line and the sentinel is dropped. -/
theorem c7_amended (l s e : Int) :
    ((soloDisableFile l).disabledIntervals [] false).1 =
      [(("r1" : String), [⟨"r1", ⟨"test.go", l⟩, ⟨"test.go", maxInt32⟩⟩])] ∧
    (l ≤ s → s ≤ maxInt32 →
      filterFailures [mkFailure ("r1") s e]
        ((soloDisableFile l).disabledIntervals [] false).1 = []) := by
  refine ⟨rfl, ?_⟩
  intro h1 h2
  have hm : ((soloDisableFile l).disabledIntervals [] false).1 =
      [(("r1" : String), [⟨"r1", ⟨"test.go", l⟩, ⟨"test.go", maxInt32⟩⟩])] := rfl
  rw [hm, singleton_interval_drop_iff]
  exact Or.inl ⟨h1, h2⟩

/-- C7, witness for the amended theorem: with the sole directive
`//revive:disable:r1` at line 4, a finding of `r1` at line 6 is dropped. -/
theorem c7_witness :
    filterFailures [mkFailure ("r1") 6 6] ((soloDisableFile 4).disabledIntervals [] false).1
        = [] :=
  (c7_amended 4 6 6).2 (by norm_num) (by norm_num [maxInt32])

/-! ## C5 -/

/-- C5: with the mandatory-reason policy active, a disable directive whose
reason text is blank yields exactly one advisory finding (confidence 1,
rule name `specify-disable-reason`, positioned at the directive comment)
and is not applied as a suppression; with a non-empty reason the
suppression is applied and no advisory finding is produced.  The first
conjunct is the general statement on the comment processor; the remaining
two run the full pipeline on a bare disable (the `r1` finding at line 5 is
emitted after the advisory, i.e. not suppressed) and on a disable with a
reason (the finding is suppressed and nothing is emitted). -/
theorem c5_mandatory_reason :
    (∀ (rules : List Rule) (f : File) (line : Int) (st : RulesEventsMap × List Failure)
      (c : Comment) (d : DirectiveMatch),
      parseDirective c.text = some d →
      d.directive = "disable" →
      d.reason.data.all (fun ch => ch == ' ') = true →
      processComment rules true f line st c =
        (st.1, st.2 ++ [⟨"reason of lint disabling not found", directiveSpecifyDisableReason,
          "", 1, ToFailurePosition c.pos c.endPos f, some ⟨c.pos, c.endPos⟩, false⟩])) ∧
    (∀ (rules : List Rule) (f : File) (line : Int) (st : RulesEventsMap × List Failure)
      (c : Comment) (d : DirectiveMatch),
      parseDirective c.text = some d →
      d.reason.data.all (fun ch => ch == ' ') = false →
      (processComment rules true f line st c).2 = st.2) ∧
    File.lint (soloDisableFile 2) [r1RuleWith (mkFailure ("r1") 5 5)] reasonPolicyConfig =
      ([c5Advisory 2, mkFailure ("r1") 5 5], none) ∧
    File.lint (c5ReasonFile 2) [r1RuleWith (mkFailure ("r1") 5 5)] reasonPolicyConfig =
      ([], none) := by
  refine ⟨?_, ?_, by decide, by decide⟩
  · intro rules f line st c d hparse hdir hall
    unfold processComment
    rw [hparse]
    simp only [hdir]
    rw [if_pos]
    simp [hall]
  · intro rules f line st c d hparse hall
    unfold processComment
    rw [hparse]
    simp only [hall, Bool.and_false]
    rw [if_neg (by simp)]

/-- C5, witness for the general conjunct: processing the bare comment
`//revive:disable:r1` at line 3 with the policy active emits exactly the
advisory finding. -/
theorem c5_witness :
    processComment [] true emptyFile 3 ([], []) ⟨"//revive:disable:r1", 3, 3⟩ =
      ([], [⟨"reason of lint disabling not found", directiveSpecifyDisableReason, "", 1,
        ToFailurePosition 3 3 emptyFile, some ⟨3, 3⟩, false⟩]) :=
  c5_mandatory_reason.1 [] emptyFile 3 ([], []) ⟨"//revive:disable:r1", 3, 3⟩
    ⟨"disable", "", "r1", ""⟩ (by decide) rfl (by decide)

/-! ## C8 -/

/-- C8, counterexample: a raw finding that carries both a node reference
(positions 70-80) and an already-set position (lines 1-2) has its position
overwritten from the node by the normalization step — the pipeline does not
keep an already-set position when a node reference is present, refuting
"resolves the finding's start/end position from its node reference only
when the finding carries a node reference and no position is already
set". -/
theorem c8_counterexample :
    c8Failure.position = ⟨1, 2⟩ ∧
    File.lint emptyFile [c8Rule] zeroConfig =
      ([{ c8Failure with position := ⟨70, 80⟩ }], none) ∧
    FailurePosition.mk 70 80 ≠ FailurePosition.mk 1 2 := by
  decide

theorem normalizeFailure_eq (f : File) (rname : String) (fl : Failure) :
    normalizeFailure f rname fl =
      { fl with
        ruleName := if fl.ruleName = "" then rname else fl.ruleName,
        position := match fl.node with
          | some n => ToFailurePosition n.pos n.endPos f
          | none => fl.position } := by
  unfold normalizeFailure
  by_cases hr : fl.ruleName = ""
  · simp only [if_pos hr]
    cases hn : fl.node
    · simp only [hn]
      try rw [← hn]
    · simp [hn]
  · simp only [if_neg hr]
    cases hn : fl.node
    · simp only [hn]
      try rw [← hn]
    · simp [hn]

theorem normalizeFailure_confidence (f : File) (rname : String) (fl : Failure) :
    (normalizeFailure f rname fl).confidence = fl.confidence := by
  rw [normalizeFailure_eq]

/-- C8, amended: the normalization step sets the finding's rule name to the
current rule's name exactly when the raw rule name is empty, and resolves
the finding's start/end position from its node reference whenever a node
reference is present — overwriting any position already set; only a finding
without a node reference keeps its position.  Stated on the full pipeline
for a single non-excluded, non-internal, unsuppressed finding that passes
the confidence gate. -/
theorem c8_amended (f : File) (config : Config) (r : Rule) (fl : Failure)
    (hex : (config.ruleConfigOf r.name).mustExclude f.name = false)
    (happ : r.apply f (config.ruleConfigOf r.name).arguments = [fl])
    (hint : fl.internal = false)
    (hcom : f.comments = [])
    (hconf : config.confidence ≤ fl.confidence) :
    File.lint f [r] config =
      ([{ fl with
          ruleName := if fl.ruleName = "" then r.name else fl.ruleName,
          position := match fl.node with
            | some n => ToFailurePosition n.pos n.endPos f
            | none => fl.position }], none) := by
  have hdmap : f.disabledIntervals [r]
      (config.directives.contains directiveSpecifyDisableReason) = ([], []) := by
    simp [File.disabledIntervals, File.eventsAndFailures, hcom, getEnabledDisabledIntervals]
  have hfirst : firstInternal [fl] = none := by
    simp [firstInternal, Failure.IsInternal, hint]
  have hkeep : filterFailures [normalizeFailure f r.name fl] [] =
      [normalizeFailure f r.name fl] := by
    simp [filterFailures_eq_filter, shouldDrop]
  have hgate : decide ((normalizeFailure f r.name fl).confidence ≥ config.confidence)
      = true := by
    rw [normalizeFailure_confidence]
    simpa using hconf
  simp only [File.lint, hdmap]
  simp only [lintRules, hex, Bool.false_eq_true, if_false, happ, hfirst, List.map_cons,
    List.map_nil, hkeep, List.filter_cons, hgate, List.filter_nil]
  rw [normalizeFailure_eq]
  simp

/-- C8, witness for the amended theorem: the pipeline emits `c8Failure`
with its position resolved from the node reference. -/
theorem c8_witness :
    File.lint emptyFile [c8Rule] zeroConfig =
      ([{ c8Failure with position := ⟨70, 80⟩ }], none) :=
  c8_amended emptyFile zeroConfig c8Rule c8Failure rfl rfl rfl rfl (by decide)

/-! ## C2 -/

theorem lintRules_append_abort (f : File) (config : Config) (dmap : DisabledIntervalsMap)
    (r : Rule) (rest : List Rule) (msg : String)
    (habort : ruleAborts f config r = some msg) :
    ∀ pre : List Rule, (∀ r1 ∈ pre, ruleAborts f config r1 = none) →
      lintRules f config dmap (pre ++ r :: rest) =
        ((pre.map (ruleEmissions f config dmap)).flatten, some msg)
  | [], _ => by
    unfold ruleAborts at habort
    by_cases hex : (config.ruleConfigOf r.name).mustExclude f.name = true
    · rw [if_pos hex] at habort
      exact absurd habort (by simp)
    · rw [if_neg hex] at habort
      obtain ⟨fl, hfl, hmsg⟩ := Option.map_eq_some'.mp habort
      rw [List.nil_append]
      simp only [lintRules, hex, if_false, hfl, hmsg]
      simp
  | r1 :: pre, hpre => by
    have h1 : ruleAborts f config r1 = none := hpre r1 (by simp)
    have ih := lintRules_append_abort f config dmap r rest msg habort pre
      (fun r2 h2 => hpre r2 (by simp [h2]))
    unfold ruleAborts at h1
    rw [List.cons_append, List.map_cons, List.flatten_cons]
    by_cases hex : (config.ruleConfigOf r1.name).mustExclude f.name = true
    · have hstep : lintRules f config dmap (r1 :: (pre ++ r :: rest)) =
          lintRules f config dmap (pre ++ r :: rest) := by
        simp only [lintRules]
        rw [if_pos hex]
      have he : ruleEmissions f config dmap r1 = [] := by
        unfold ruleEmissions
        rw [if_pos hex]
      rw [hstep, ih, he, List.nil_append]
    · rw [if_neg hex] at h1
      have hfl : firstInternal (r1.apply f (config.ruleConfigOf r1.name).arguments)
          = none := Option.map_eq_none'.mp h1
      have he : ruleEmissions f config dmap r1 =
          (filterFailures ((r1.apply f (config.ruleConfigOf r1.name).arguments).map
            (normalizeFailure f r1.name)) dmap).filter
              (fun fl => fl.confidence ≥ config.confidence) := by
        unfold ruleEmissions
        rw [if_neg hex]
      have hstep : lintRules f config dmap (r1 :: (pre ++ r :: rest)) =
          (ruleEmissions f config dmap r1 ++
            (lintRules f config dmap (pre ++ r :: rest)).1,
            (lintRules f config dmap (pre ++ r :: rest)).2) := by
        simp only [lintRules]
        rw [if_neg hex, hfl, he]
      rw [hstep, ih]

/-- C2: if a rule (preceded only by rules that do not themselves abort)
yields an internal finding on a non-excluded file, the per-file lint
operation returns the session-level error carrying that finding's message;
the findings emitted are exactly the advisory findings of the directive
scan followed by the previously ordered rules' contributions — nothing from
the aborting rule or from any subsequently ordered rule is emitted, and the
conclusion holds for every configuration (any confidence threshold) and
every comment set (any disabled intervals), so the abort is neither
suppressible nor confidence-filtered. -/
theorem c2_internal_abort (f : File) (config : Config) (pre : List Rule) (r : Rule)
    (rest : List Rule) (msg : String)
    (hpre : ∀ r1 ∈ pre, ruleAborts f config r1 = none)
    (habort : ruleAborts f config r = some msg) :
    File.lint f (pre ++ r :: rest) config =
      ((f.disabledIntervals (pre ++ r :: rest)
          (config.directives.contains directiveSpecifyDisableReason)).2 ++
        (pre.map (ruleEmissions f config
          (f.disabledIntervals (pre ++ r :: rest)
            (config.directives.contains directiveSpecifyDisableReason)).1)).flatten,
        some msg) := by
  simp only [File.lint]
  rw [lintRules_append_abort f config _ r rest msg habort pre hpre]

/-- C2, witness: with a clean rule `ra` before the faulty rule `rb` and a
rule `rc` after it, the pipeline emits only `ra`'s finding and returns the
internal finding's message as the session error; `rc`'s finding is never
emitted. -/
theorem c2_witness :
    File.lint emptyFile [w2RuleA, w2RuleB, w2RuleC] zeroConfig =
      ([mkFailure ("ra") 4 4], some "boom") := by
  have h := c2_internal_abort emptyFile zeroConfig [w2RuleA] w2RuleB [w2RuleC] "boom"
    (by intro r1 h1; simp at h1; subst h1; decide) (by decide)
  rw [show ([w2RuleA] ++ [w2RuleB, w2RuleC]) = [w2RuleA, w2RuleB, w2RuleC] from rfl] at h
  rw [h]
  decide

/-! ## C4 -/

theorem dropLeading_iff : ∀ (p s r : List Char), dropLeading p s = some r ↔ s = p ++ r
  | [], s, r => by simp [dropLeading]
  | p :: ps, [], r => by simp [dropLeading]
  | p :: ps, c :: cs, r => by
    by_cases h : p = c
    · subst h
      simp only [dropLeading, if_pos rfl, List.cons_append, List.cons.injEq, true_and]
      exact dropLeading_iff ps cs r
    · simp only [dropLeading, if_neg h, List.cons_append]
      constructor
      · intro hc; exact absurd hc (by simp)
      · intro hc
        injection hc with h1 _
        exact absurd h1.symm h

theorem dropLeading_append (p r : List Char) : dropLeading p (p ++ r) = some r :=
  (dropLeading_iff p (p ++ r) r).mpr rfl

theorem goSpace_space : goSpace ' ' = true := by decide

theorem reasonTail_cons_ws {c : Char} {cs : List Char} (h : goSpace c = true) :
    reasonTail (c :: cs) =
      (match reasonTail cs with
       | some r => some r
       | none =>
         if c == ' ' && !cs.isEmpty && cs.all (fun d => d != '\n') then some (some cs)
         else none) := by
  simp only [reasonTail]
  rw [if_pos h]

theorem reasonTail_cons_not_ws {c : Char} {cs : List Char} (h : goSpace c = false) :
    reasonTail (c :: cs) = none := by
  simp only [reasonTail]
  rw [if_neg (by simp [h])]

theorem reason_cond_iff (c : Char) (cs : List Char) :
    (c == ' ' && !cs.isEmpty && cs.all (fun d => d != '\n')) = true ↔
      (c = ' ' ∧ cs ≠ [] ∧ NoNewline cs) := by
  simp only [Bool.and_eq_true, beq_iff_eq, Bool.not_eq_true', List.all_eq_true, bne_iff_ne,
    ne_eq, NoNewline]
  constructor
  · rintro ⟨⟨h1, h2⟩, h3⟩
    exact ⟨h1, by simpa [List.isEmpty_iff] using h2, h3⟩
  · rintro ⟨h1, h2, h3⟩
    exact ⟨⟨h1, by simpa [List.isEmpty_iff] using h2⟩, h3⟩

theorem reasonTail_isSome_iff : ∀ t : List Char, (reasonTail t).isSome = true ↔ TailLang t
  | [] => by
    simp only [reasonTail, Option.isSome_some, true_iff]
    exact Or.inl (by intro c hc; simp at hc)
  | c :: cs => by
    constructor
    · intro h
      by_cases hws : goSpace c = true
      · rw [reasonTail_cons_ws hws] at h
        cases hr : reasonTail cs with
        | some r =>
          have := ((reasonTail_isSome_iff cs).mp (by simp [hr]))
          rcases this with hl | ⟨u, v, hu, hv, hnl, heq⟩
          · refine Or.inl ?_
            intro d hd
            rcases List.mem_cons.mp hd with h1 | h1
            · exact h1 ▸ hws
            · exact hl d h1
          · refine Or.inr ⟨c :: u, v, ?_, hv, hnl, by rw [heq]; rfl⟩
            intro d hd
            rcases List.mem_cons.mp hd with h1 | h1
            · exact h1 ▸ hws
            · exact hu d h1
        | none =>
          rw [hr] at h
          by_cases hcond : (c == ' ' && !cs.isEmpty && cs.all (fun d => d != '\n')) = true
          · obtain ⟨hc1, hne, hnl⟩ := (reason_cond_iff c cs).mp hcond
            exact Or.inr ⟨[], cs, by intro d hd; simp at hd, hne, hnl, by rw [hc1]; rfl⟩
          · rw [if_neg hcond] at h
            simp at h
      · rw [reasonTail_cons_not_ws (by simpa using hws)] at h
        simp at h
    · intro h
      rcases h with hl | ⟨u, v, hu, hv, hnl, heq⟩
      · have hws : goSpace c = true := hl c (by simp)
        have hlcs : WSRun cs := by intro d hd; exact hl d (by simp [hd])
        have := (reasonTail_isSome_iff cs).mpr (Or.inl hlcs)
        obtain ⟨r, hr⟩ := Option.isSome_iff_exists.mp this
        rw [reasonTail_cons_ws hws, hr]
        simp
      · cases u with
        | nil =>
          simp only [List.nil_append] at heq
          injection heq with hc hcs
          subst hc
          subst hcs
          rw [reasonTail_cons_ws goSpace_space]
          cases hr : reasonTail cs with
          | some r => simp
          | none =>
            rw [if_pos ((reason_cond_iff ' ' cs).mpr ⟨rfl, hv, hnl⟩)]
            simp
        | cons u0 u1 =>
          simp only [List.cons_append] at heq
          injection heq with hc hcs
          subst hc
          have hws : goSpace c = true := hu c (by simp)
          have : (reasonTail cs).isSome = true :=
            (reasonTail_isSome_iff cs).mpr
              (Or.inr ⟨u1, v, by intro d hd; exact hu d (by simp [hd]), hv, hnl, hcs⟩)
          obtain ⟨r, hr⟩ := Option.isSome_iff_exists.mp this
          rw [reasonTail_cons_ws hws, hr]
          simp

theorem tailLang_headWS {t : List Char} (h : TailLang t) :
    t = [] ∨ ∃ c cs, t = c :: cs ∧ goSpace c = true := by
  rcases h with hl | ⟨u, v, hu, _, _, heq⟩
  · cases t with
    | nil => exact Or.inl rfl
    | cons c cs => exact Or.inr ⟨c, cs, rfl, hl c (by simp)⟩
  · cases u with
    | nil => exact Or.inr ⟨' ', v, by simpa using heq, goSpace_space⟩
    | cons u0 u1 => exact Or.inr ⟨u0, u1 ++ ' ' :: v, by simpa using heq, hu u0 (by simp)⟩

theorem dropWhile_goSpace_append :
    ∀ (w l : List Char), WSRun w → (w ++ l).dropWhile goSpace = l.dropWhile goSpace
  | [], l, _ => by simp
  | c :: w, l, h => by
    rw [List.cons_append, List.dropWhile_cons_of_pos (h c (by simp))]
    exact dropWhile_goSpace_append w l (fun d hd => h d (by simp [hd]))

theorem takeWhile_nonws (x t : List Char) (hx : ∀ c ∈ x, goSpace c = false)
    (ht : t = [] ∨ ∃ c cs, t = c :: cs ∧ goSpace c = true) :
    (x ++ t).takeWhile (fun c => !goSpace c) = x ∧
      (x ++ t).dropWhile (fun c => !goSpace c) = t := by
  induction x with
  | nil =>
    rcases ht with h | ⟨c, cs, heq, hws⟩
    · simp [h]
    · subst heq
      constructor
      · rw [List.nil_append, List.takeWhile_cons_of_neg (by simp [hws])]
      · rw [List.nil_append, List.dropWhile_cons_of_neg (by simp [hws])]
  | cons a x ih =>
    have ha : goSpace a = false := hx a (by simp)
    have ih1 := ih (fun c hc => hx c (by simp [hc]))
    constructor
    · rw [List.cons_append, List.takeWhile_cons_of_pos (by simp [ha]), ih1.1]
    · rw [List.cons_append, List.dropWhile_cons_of_pos (by simp [ha]), ih1.2]

theorem colon_not_ws : goSpace ':' = false := by decide

theorem parseAfterModifier_isSome_iff (s : List Char) :
    (parseAfterModifier s).isSome = true ↔
      ∃ rp tl : List Char, RulesOpt rp ∧ TailLang tl ∧ s = rp ++ tl := by
  cases s with
  | nil =>
    constructor
    · intro _
      exact ⟨[], [], Or.inl rfl, Or.inl (fun c hc => by simp at hc), rfl⟩
    · intro _
      rfl
  | cons c rest =>
    by_cases hc : c = ':'
    · subst hc
      by_cases hre : ((rest.takeWhile (fun d => !goSpace d)).isEmpty : Bool) = true
      · have hnone : parseAfterModifier (':' :: rest) = none := by
          simp only [parseAfterModifier, if_pos rfl, if_pos hre, if_true]
          rw [reasonTail_cons_not_ws colon_not_ws]
        constructor
        · intro h
          rw [hnone] at h
          simp at h
        · rintro ⟨rp, tl, hrp, htl, hs⟩
          exfalso
          rcases hrp with h0 | ⟨x, hx0, hxw, hxeq⟩
          · subst h0
            rw [List.nil_append] at hs
            rcases tailLang_headWS htl with h1 | ⟨d, ds, hdeq, hdws⟩
            · rw [h1] at hs
              exact List.noConfusion hs
            · rw [hdeq] at hs
              injection hs with hd _
              rw [← hd] at hdws
              exact absurd hdws (by decide)
          · subst hxeq
            rw [List.cons_append] at hs
            injection hs with _ hrest
            obtain ⟨htw, _⟩ := takeWhile_nonws x tl hxw (tailLang_headWS htl)
            rw [hrest, htw] at hre
            exact hx0 (List.isEmpty_iff.mp hre)
      · have heq2 : parseAfterModifier (':' :: rest) =
            (match reasonTail (rest.dropWhile (fun d => !goSpace d)) with
             | none => none
             | some reasonOpt =>
               some (String.mk (rest.takeWhile (fun d => !goSpace d)),
                 match reasonOpt with
                 | some cs => String.mk cs
                 | none => "")) := by
          simp only [parseAfterModifier, if_pos rfl, if_neg hre, if_true]
        constructor
        · intro h
          rw [heq2] at h
          cases hr : reasonTail (rest.dropWhile (fun d => !goSpace d)) with
          | none =>
            rw [hr] at h
            simp at h
          | some ro =>
            have htl : TailLang (rest.dropWhile (fun d => !goSpace d)) :=
              (reasonTail_isSome_iff _).mp (by simp [hr])
            refine ⟨':' :: rest.takeWhile (fun d => !goSpace d),
              rest.dropWhile (fun d => !goSpace d),
              Or.inr ⟨rest.takeWhile (fun d => !goSpace d),
                by simpa [List.isEmpty_iff] using hre, ?_, rfl⟩, htl, ?_⟩
            · intro d hd
              have := List.mem_takeWhile_imp hd
              simpa using this
            · rw [List.cons_append, List.takeWhile_append_dropWhile]
        · rintro ⟨rp, tl, hrp, htl, hs⟩
          rcases hrp with h0 | ⟨x, hx0, hxw, hxeq⟩
          · exfalso
            subst h0
            rw [List.nil_append] at hs
            rcases tailLang_headWS htl with h1 | ⟨d, ds, hdeq, hdws⟩
            · rw [h1] at hs
              exact List.noConfusion hs
            · rw [hdeq] at hs
              injection hs with hd _
              rw [← hd] at hdws
              exact absurd hdws (by decide)
          · subst hxeq
            rw [List.cons_append] at hs
            injection hs with _ hrest
            obtain ⟨htw, hdw⟩ := takeWhile_nonws x tl hxw (tailLang_headWS htl)
            rw [heq2, hrest, hdw]
            obtain ⟨r, hr⟩ :=
              Option.isSome_iff_exists.mp ((reasonTail_isSome_iff tl).mpr htl)
            rw [hr]
            simp
    · have heq2 : parseAfterModifier (c :: rest) =
          (match reasonTail (c :: rest) with
           | none => none
           | some ro =>
             some (("" : String),
               match ro with
               | some cs => String.mk cs
               | none => "")) := by
        simp only [parseAfterModifier, if_neg hc]
      constructor
      · intro h
        rw [heq2] at h
        cases hr : reasonTail (c :: rest) with
        | none =>
          rw [hr] at h
          simp at h
        | some ro =>
          exact ⟨[], c :: rest, Or.inl rfl, (reasonTail_isSome_iff _).mp (by simp [hr]), rfl⟩
      · rintro ⟨rp, tl, hrp, htl, hs⟩
        rcases hrp with h0 | ⟨x, hx0, hxw, hxeq⟩
        · subst h0
          rw [List.nil_append] at hs
          rw [heq2, hs]
          obtain ⟨r, hr⟩ :=
            Option.isSome_iff_exists.mp ((reasonTail_isSome_iff tl).mpr htl)
          rw [hr]
          simp
        · exfalso
          subst hxeq
          rw [List.cons_append] at hs
          injection hs with hd _
          exact hc hd

theorem dropLeading_dash_none (p : List Char) (c : Char) (cs : List Char) (hcd : c ≠ '-') :
    dropLeading ('-' :: p) (c :: cs) = none := by
  simp only [dropLeading]
  rw [if_neg (fun hh => hcd hh.symm)]

theorem dropLeading_line_nextline (r : List Char) :
    dropLeading ("-line").data (("-next-line").data ++ r) = none := rfl

theorem rpTl_noDash (rp tl : List Char) (hrp : RulesOpt rp) (htl : TailLang tl) :
    rp ++ tl = [] ∨ ∃ c cs, rp ++ tl = c :: cs ∧ c ≠ '-' := by
  rcases hrp with h0 | ⟨x, _, _, hxeq⟩
  · subst h0
    rw [List.nil_append]
    rcases tailLang_headWS htl with h1 | ⟨c, cs, hceq, hcws⟩
    · exact Or.inl h1
    · refine Or.inr ⟨c, cs, hceq, ?_⟩
      intro hcd
      rw [hcd] at hcws
      exact absurd hcws (by decide)
  · subst hxeq
    exact Or.inr ⟨':', x ++ tl, by rw [List.cons_append], by decide⟩

theorem parseAfterAction_isSome_iff (act : String) (s : List Char) :
    (parseAfterAction act s).isSome = true ↔
      ∃ (mod : String) (rp tl : List Char),
        (mod = ("" : String) ∨ mod = ("-line" : String) ∨ mod = ("-next-line" : String)) ∧
        RulesOpt rp ∧ TailLang tl ∧ s = mod.data ++ rp ++ tl := by
  constructor
  · intro h
    cases h1 : dropLeading ("-line").data s with
    | some r1 =>
      have hs := (dropLeading_iff _ _ _).mp h1
      have hps : parseAfterAction act s =
          (match parseAfterModifier r1 with
           | none => none
           | some rr => some ⟨act, "line", rr.1, rr.2⟩) := by
        simp only [parseAfterAction, h1]
      rw [hps] at h
      cases hm : parseAfterModifier r1 with
      | none =>
        rw [hm] at h
        simp at h
      | some rr =>
        obtain ⟨rp, tl, hrp, htl, hr1⟩ := (parseAfterModifier_isSome_iff r1).mp (by simp [hm])
        exact ⟨("-line" : String), rp, tl, Or.inr (Or.inl rfl), hrp, htl,
          by rw [hs, hr1, List.append_assoc]⟩
    | none =>
      cases h2 : dropLeading ("-next-line").data s with
      | some r2 =>
        have hs := (dropLeading_iff _ _ _).mp h2
        have hps : parseAfterAction act s =
            (match parseAfterModifier r2 with
             | none => none
             | some rr => some ⟨act, "next-line", rr.1, rr.2⟩) := by
          simp only [parseAfterAction, h1, h2]
        rw [hps] at h
        cases hm : parseAfterModifier r2 with
        | none =>
          rw [hm] at h
          simp at h
        | some rr =>
          obtain ⟨rp, tl, hrp, htl, hr2⟩ :=
            (parseAfterModifier_isSome_iff r2).mp (by simp [hm])
          exact ⟨("-next-line" : String), rp, tl, Or.inr (Or.inr rfl), hrp, htl,
            by rw [hs, hr2, List.append_assoc]⟩
      | none =>
        have hps : parseAfterAction act s =
            (match parseAfterModifier s with
             | none => none
             | some rr => some ⟨act, "", rr.1, rr.2⟩) := by
          simp only [parseAfterAction, h1, h2]
        rw [hps] at h
        cases hm : parseAfterModifier s with
        | none =>
          rw [hm] at h
          simp at h
        | some rr =>
          obtain ⟨rp, tl, hrp, htl, hr⟩ := (parseAfterModifier_isSome_iff s).mp (by simp [hm])
          exact ⟨("" : String), rp, tl, Or.inl rfl, hrp, htl, by rw [hr]; rfl⟩
  · rintro ⟨mod, rp, tl, hmod, hrp, htl, hseq⟩
    have hmod_some : (parseAfterModifier (rp ++ tl)).isSome = true :=
      (parseAfterModifier_isSome_iff _).mpr ⟨rp, tl, hrp, htl, rfl⟩
    obtain ⟨rr, hrr⟩ := Option.isSome_iff_exists.mp hmod_some
    rcases hmod with h | h | h
    · subst h
      have hs2 : s = rp ++ tl := by simpa using hseq
      have hnodash := rpTl_noDash rp tl hrp htl
      have h1 : dropLeading ("-line").data s = none := by
        rcases hnodash with h0 | ⟨c, cs, hcc, hcd⟩
        · rw [hs2, h0]; rfl
        · rw [hs2, hcc]
          exact dropLeading_dash_none _ c cs hcd
      have h2 : dropLeading ("-next-line").data s = none := by
        rcases hnodash with h0 | ⟨c, cs, hcc, hcd⟩
        · rw [hs2, h0]; rfl
        · rw [hs2, hcc]
          exact dropLeading_dash_none _ c cs hcd
      have hps : parseAfterAction act s =
          (match parseAfterModifier s with
           | none => none
           | some rr => some ⟨act, "", rr.1, rr.2⟩) := by
        simp only [parseAfterAction, h1, h2]
      rw [hps, hs2, hrr]
      simp
    · subst h
      have hs2 : s = ("-line").data ++ (rp ++ tl) := by rw [hseq, List.append_assoc]
      have h1 : dropLeading ("-line").data s = some (rp ++ tl) := by
        rw [hs2]
        exact dropLeading_append _ _
      have hps : parseAfterAction act s =
          (match parseAfterModifier (rp ++ tl) with
           | none => none
           | some rr => some ⟨act, "line", rr.1, rr.2⟩) := by
        simp only [parseAfterAction, h1]
      rw [hps, hrr]
      simp
    · subst h
      have hs2 : s = ("-next-line").data ++ (rp ++ tl) := by rw [hseq, List.append_assoc]
      have h1 : dropLeading ("-line").data s = none := by
        rw [hs2]
        exact dropLeading_line_nextline _
      have h2 : dropLeading ("-next-line").data s = some (rp ++ tl) := by
        rw [hs2]
        exact dropLeading_append _ _
      have hps : parseAfterAction act s =
          (match parseAfterModifier (rp ++ tl) with
           | none => none
           | some rr => some ⟨act, "next-line", rr.1, rr.2⟩) := by
        simp only [parseAfterAction, h1, h2]
      rw [hps, hrr]
      simp

theorem dropWhile_revive (x : List Char) :
    ((("revive:").data ++ x).dropWhile goSpace) = ("revive:").data ++ x := by
  show ((('r' :: ("evive:").data) ++ x).dropWhile goSpace) = _
  rw [List.cons_append, List.dropWhile_cons_of_neg (by decide)]

theorem dropLeading_enable_disable (r : List Char) :
    dropLeading ("enable").data (("disable").data ++ r) = none := rfl

theorem parseDirective_isSome_iff (s : String) :
    (parseDirective s).isSome = true ↔ matchesDirectiveRegexp s := by
  constructor
  · intro h
    cases h0 : dropLeading (['/', '/']) s.data with
    | none =>
      have hd : parseDirective s = none := by simp only [parseDirective, h0]
      rw [hd] at h
      simp at h
    | some s1 =>
      have hs0 : s.data = ['/', '/'] ++ s1 := (dropLeading_iff _ _ _).mp h0
      have hkey : parseDirective s =
          (match dropLeading ("revive:").data (s1.dropWhile goSpace) with
           | none => none
           | some s3 =>
             match dropLeading ("enable").data s3 with
             | some s4 => parseAfterAction ("enable") s4
             | none =>
               match dropLeading ("disable").data s3 with
               | some s4 => parseAfterAction ("disable") s4
               | none => none) := by
        simp only [parseDirective, h0]
      rw [hkey] at h
      cases h3 : dropLeading ("revive:").data (s1.dropWhile goSpace) with
      | none =>
        rw [h3] at h
        simp at h
      | some s3 =>
        rw [h3] at h
        dsimp only at h
        have hs2 : s1.dropWhile goSpace = ("revive:").data ++ s3 := (dropLeading_iff _ _ _).mp h3
        have hw : WSRun (s1.takeWhile goSpace) := fun c hc => List.mem_takeWhile_imp hc
        have hsplit : s1 = s1.takeWhile goSpace ++ (("revive:").data ++ s3) := by
          rw [← hs2, List.takeWhile_append_dropWhile]
        cases h4 : dropLeading ("enable").data s3 with
        | some s4 =>
          rw [h4] at h
          dsimp only at h
          have hs3 : s3 = ("enable").data ++ s4 := (dropLeading_iff _ _ _).mp h4
          obtain ⟨mod, rp, tl, hmod, hrp, htl, hs4⟩ := (parseAfterAction_isSome_iff _ _).mp h
          set w1 := s1.takeWhile goSpace with hw1
          refine ⟨w1, ("enable" : String), mod, rp, tl, Or.inl rfl, hmod,
            hrp, htl, hw, ?_⟩
          rw [hs0, hsplit, hs3, hs4]
          simp only [List.append_assoc, List.cons_append, List.nil_append]
        | none =>
          rw [h4] at h
          dsimp only at h
          cases h5 : dropLeading ("disable").data s3 with
          | none =>
            rw [h5] at h
            simp at h
          | some s4 =>
            rw [h5] at h
            dsimp only at h
            have hs3 : s3 = ("disable").data ++ s4 := (dropLeading_iff _ _ _).mp h5
            obtain ⟨mod, rp, tl, hmod, hrp, htl, hs4⟩ :=
              (parseAfterAction_isSome_iff _ _).mp h
            set w1 := s1.takeWhile goSpace with hw1
            refine ⟨w1, ("disable" : String), mod, rp, tl, Or.inr rfl,
              hmod, hrp, htl, hw, ?_⟩
            rw [hs0, hsplit, hs3, hs4]
            simp only [List.append_assoc, List.cons_append, List.nil_append]
  · rintro ⟨w, act, mod, rp, tl, hact, hmod, hrp, htl, hw, hs⟩
    have hpa : (parseAfterAction act (mod.data ++ (rp ++ tl))).isSome = true := by
      have := (parseAfterAction_isSome_iff act (mod.data ++ rp ++ tl)).mpr
        ⟨mod, rp, tl, hmod, hrp, htl, rfl⟩
      rwa [List.append_assoc] at this
    have h0 : dropLeading (['/', '/']) s.data =
        some (w ++ ("revive:").data ++ act.data ++ mod.data ++ rp ++ tl) := by
      rw [hs]
      rfl
    have hassoc : w ++ ("revive:").data ++ act.data ++ mod.data ++ rp ++ tl =
        w ++ (("revive:").data ++ (act.data ++ (mod.data ++ (rp ++ tl)))) := by
      simp [List.append_assoc]
    have hdw : (w ++ ("revive:").data ++ act.data ++ mod.data ++ rp ++ tl).dropWhile goSpace
        = ("revive:").data ++ (act.data ++ (mod.data ++ (rp ++ tl))) := by
      rw [hassoc, dropWhile_goSpace_append _ _ hw, dropWhile_revive]
    have h3 : dropLeading ("revive:").data
        (("revive:").data ++ (act.data ++ (mod.data ++ (rp ++ tl)))) =
        some (act.data ++ (mod.data ++ (rp ++ tl))) := dropLeading_append _ _
    rcases hact with h | h
    · subst h
      have h4 : dropLeading ("enable").data
          (("enable").data ++ (mod.data ++ (rp ++ tl))) =
          some (mod.data ++ (rp ++ tl)) := dropLeading_append _ _
      have hfinal : parseDirective s = parseAfterAction ("enable") (mod.data ++ (rp ++ tl)) := by
        simp only [parseDirective, h0, hdw, h3, h4]
      rw [hfinal]
      exact hpa
    · subst h
      have h4 : dropLeading ("enable").data
          (("disable").data ++ (mod.data ++ (rp ++ tl))) = none :=
        dropLeading_enable_disable _
      have h5 : dropLeading ("disable").data
          (("disable").data ++ (mod.data ++ (rp ++ tl))) =
          some (mod.data ++ (rp ++ tl)) := dropLeading_append _ _
      have hfinal : parseDirective s =
          parseAfterAction ("disable") (mod.data ++ (rp ++ tl)) := by
        simp only [parseDirective, h0, hdw, h3, h4, h5]
      rw [hfinal]
      exact hpa

/-- C4, counterexample: the comment `//revive:disable ` (bare disable with
one trailing space) does not match the claimed grammar
`//\s*revive:(enable|disable)(-(line|next-line))?(:[^\s]+)?(\s+.+)?` — its
reason part `(\s+.+)?` cannot absorb trailing whitespace alone — yet the
code's regexp accepts it and it has a suppression effect: it disables every
configured rule from line 1 to the sentinel line.  This refutes both the
"exactly when" and the "no suppression effect" halves of the claim. -/
theorem c4_counterexample :
    specGrammarAccepts c4Text = false ∧
    (parseDirective c4Text).isSome = true ∧
    (c4File.disabledIntervals [mkRule ("r1") []] false).1 =
      [(("r1" : String), [⟨"r1", ⟨"test.go", 1⟩, ⟨"test.go", 2147483647⟩⟩])] := by
  decide

/-- C4, amended: a comment line is treated as a suppression directive
exactly when it matches the code's regexp
`^//\s*revive:(enable|disable)(?:-(line|next-line))?(?::([^\s]+))?\s*(?: (.+))?$`
(whose reason tail allows trailing whitespace and requires a single space
before a nonempty newline-free reason), with the same group roles as the
claim; every comment line that does not match is silently ignored,
producing no error, no finding, and no state change in the suppression
engine. -/
theorem c4_amended :
    (∀ s : String, (parseDirective s).isSome = true ↔ matchesDirectiveRegexp s) ∧
    (∀ (rules : List Rule) (ms : Bool) (f : File) (line : Int)
      (st : RulesEventsMap × List Failure) (c : Comment),
      parseDirective c.text = none →
      processComment rules ms f line st c = st) := by
  refine ⟨parseDirective_isSome_iff, ?_⟩
  intro rules ms f line st c hnone
  unfold processComment
  rw [hnone]

/-- C4, witness: a well-formed next-line directive with a reason is in the
regexp's language, and an ordinary comment is processed without any
effect. -/
theorem c4_witness :
    matchesDirectiveRegexp "//revive:disable-next-line:r1 because" ∧
    processComment [] false emptyFile 1 ([], []) ⟨"// just a comment", 1, 1⟩ = ([], []) :=
  ⟨(c4_amended.1 _).mp (by decide),
    c4_amended.2 [] false emptyFile 1 ([], []) ⟨"// just a comment", 1, 1⟩ (by decide)⟩

end Revive
